import Mathlib

/-! To-Do list (`script.js`): a shallow embedding and its verified properties.

The page keeps its tasks in the global `tasks` array, next to a handful of
globals for the view (`isEditing`, `editTaskId`, `currentFilter`,
`searchQuery`, `sortOption`). Every event handler of `script.js` is embedded
as a pure function on an explicit `State`; what a handler reads from the
outside world (form fields, the answer to `confirm`, the reading of
`Date.now()`) is an argument of that function.
-/

namespace TodoList

/-! ## Strings -/

/-- ECMAScript `WhiteSpace` and `LineTerminator` code points: the characters that
`String.prototype.trim` removes from both ends of a string. -/
def isJsWhitespace (c : Char) : Bool :=
  let n := c.toNat
  n == 0x09 || n == 0x0A || n == 0x0B || n == 0x0C || n == 0x0D || n == 0x20 ||
  n == 0xA0 || n == 0x1680 || (decide (0x2000 ≤ n) && decide (n ≤ 0x200A)) ||
  n == 0x2028 || n == 0x2029 || n == 0x202F || n == 0x205F || n == 0x3000 ||
  n == 0xFEFF

/-- Strip the white space at both ends of a character list. -/
def trimChars (l : List Char) : List Char :=
  ((l.dropWhile isJsWhitespace).reverse.dropWhile isJsWhitespace).reverse

/-- `String.prototype.trim`. -/
def jsTrim (s : String) : String := ⟨trimChars s.data⟩

/-- Whether the character list `q` occurs in `s` as a contiguous block. -/
def includesChars (q : List Char) : List Char → Bool
  | [] => q.isPrefixOf []
  | c :: s => q.isPrefixOf (c :: s) || includesChars q s

/-- `String.prototype.includes`: `s.includes(q)`. -/
def includes (s q : String) : Bool := includesChars q.data s.data

/-- Truthiness of a field that holds a string or is absent (`undefined`, `null`):
only a non-empty string is truthy. -/
def truthy : Option String → Bool
  | some s => s != ""
  | none => false

/-- The value of `x || ""` for a field that holds a string or is absent. -/
def orEmpty : Option String → String
  | some s => s
  | none => ""

/-- The built-ins of the host whose definitions lie outside the page's script:
the Unicode lower-casing of `String.prototype.toLowerCase`, and the time value
of `new Date(str)` (`none` is the invalid date, whose number value is `NaN`). -/
structure JsRuntime where
  toLowerCase : String → String
  dateValue : String → Option Int

/-! ## Data model -/

/-- A task record, as built by the submit handler. `description` and `dueDate`
are always strings in records the handler builds; `none` stands for a record
read back from storage without the field (or with `null`). -/
structure Task where
  id : Int
  title : String
  description : Option String
  dueDate : Option String
  priority : String
  completed : Bool
deriving DecidableEq, Repr

/-- The script's global variables, with the snapshot last written to the
`tasks` storage entry by `saveTasks` (`none`: nothing written in this session). -/
structure State where
  tasks : List Task
  isEditing : Bool
  editTaskId : Option Int
  currentFilter : String
  searchQuery : String
  sortOption : String
  stored : Option (List Task)
deriving DecidableEq, Repr

/-- The globals right after the script has run its top-level declarations over
an initial task array. -/
def initialState (tasks : List Task) : State :=
  { tasks := tasks, isEditing := false, editTaskId := none, currentFilter := "all",
    searchQuery := "", sortOption := "none", stored := none }

/-! ## Helpers of the script -/

/-- `saveTasks()`: write the whole array to the `tasks` storage entry. -/
def saveTasks (s : State) : State := { s with stored := some s.tasks }

/-- `resetFormState()`: leave edit mode (the form fields themselves are inputs of
the next submit and are not part of the state). -/
def resetFormState (s : State) : State := { s with isEditing := false, editTaskId := none }

/-- What `updateStats` writes: the three counters and the `disabled` flag of the
"Clear completed" button. -/
structure Stats where
  total : Int
  pending : Int
  completed : Int
  clearDisabled : Bool
deriving DecidableEq, Repr

/-- `updateStats()`. -/
def updateStats (s : State) : Stats :=
  let total : Int := s.tasks.length
  let completed : Int := (s.tasks.filter fun t => t.completed).length
  let pending : Int := total - completed
  { total := total, pending := pending, completed := completed,
    clearDisabled := completed == 0 }

/-! ## The view pipeline of `renderTasks` -/

/-- Stage 1 of `renderTasks`: filter by status. -/
def statusFilter (currentFilter : String) (tasks : List Task) : List Task :=
  tasks.filter fun task =>
    if currentFilter = "pending" then !task.completed
    else if currentFilter = "completed" then task.completed
    else true

/-- The predicate of the search filter for an already normalised `query`. -/
def searchMatch (rt : JsRuntime) (query : String) (task : Task) : Bool :=
  let titleMatch := includes (rt.toLowerCase task.title) query
  let descMatch := includes (rt.toLowerCase (orEmpty task.description)) query
  titleMatch || descMatch

/-- Stage 2 of `renderTasks`: filter by the search text (title and description). -/
def searchFilter (rt : JsRuntime) (searchQuery : String) (filteredTasks : List Task) :
    List Task :=
  let query := rt.toLowerCase (jsTrim searchQuery)
  if query != "" then filteredTasks.filter (searchMatch rt query) else filteredTasks

/-- Whether an element whose comparison with the one before it gave `order`
ends the run: in a descending run each element compares less than the one
before it, in an ascending run it does not. -/
def runBreaks (isDescending : Bool) (order : Int) : Bool :=
  if isDescending then decide (0 ≤ order) else decide (order < 0)

/-- The part of the list that continues the run after `previousElement`, and
what is left after it. -/
def splitRun {α : Type} (cmp : α → α → Int) (isDescending : Bool) :
    α → List α → List α × List α
  | _, [] => ([], [])
  | previousElement, currentElement :: rest =>
    if runBreaks isDescending (cmp currentElement previousElement) then
      ([], currentElement :: rest)
    else
      (currentElement :: (splitRun cmp isDescending currentElement rest).1,
       (splitRun cmp isDescending currentElement rest).2)

/-- Insert `pivot` into `seg` at the place a binary search finds: the middle
element is compared with the pivot; the search goes on in the left half when
the pivot compares less and in the right half otherwise. `fuel` bounds the
number of halvings; the length of `seg` is enough. -/
def binaryInsert {α : Type} (cmp : α → α → Int) (pivot : α) : Nat → List α → List α
  | 0, seg => pivot :: seg
  | fuel + 1, seg =>
    match seg.drop (seg.length / 2) with
    | [] => pivot :: seg
    | x :: after =>
      if cmp pivot x < 0 then
        binaryInsert cmp pivot fuel (seg.take (seg.length / 2)) ++ x :: after
      else
        seg.take (seg.length / 2) ++ x :: binaryInsert cmp pivot fuel after

/-- The insertion loop: each element left after the first run is inserted,
in order, into the sorted part before it. -/
def insertAll {α : Type} (cmp : α → α → Int) (run rest : List α) : List α :=
  rest.foldl (fun workArray pivot => binaryInsert cmp pivot workArray.length workArray) run

/-- `Array.prototype.sort(cmp)` on a copy of the list, as the V8 engine (Chrome,
Node) sorts an array of fewer than 64 elements: the first run is found (and
reversed when it descends), then every element after it is put in place by
binary insertion. (A result `NaN` of the comparator is read as `+0`; the
comparators hand that in already.) Longer arrays are merged from such runs,
which for a consistent comparator gives the same list, the one every
conforming engine returns: the sort is stable. -/
def jsSort {α : Type} (cmp : α → α → Int) : List α → List α
  | [] => []
  | [a] => [a]
  | a :: b :: rest =>
    let isDescending := decide (cmp b a < 0)
    let run := a :: b :: (splitRun cmp isDescending b rest).1
    insertAll cmp (if isDescending then run.reverse else run)
      (splitRun cmp isDescending b rest).2

/-- The comparator of the `dueDate` sort. The difference of two dates is `NaN`
when either is invalid, and the sort reads a `NaN` result as `+0`. -/
def compareDueDate (rt : JsRuntime) (a b : Task) : Int :=
  if !truthy a.dueDate && !truthy b.dueDate then 0
  else if !truthy a.dueDate then 1
  else if !truthy b.dueDate then -1
  else
    match rt.dateValue (orEmpty a.dueDate), rt.dateValue (orEmpty b.dueDate) with
    | some x, some y => x - y
    | _, _ => 0

/-- The property names every object inherits from `Object.prototype`. -/
def inheritedKeys : List String :=
  ["constructor", "__defineGetter__", "__defineSetter__", "hasOwnProperty",
   "__lookupGetter__", "__lookupSetter__", "isPrototypeOf", "propertyIsEnumerable",
   "toString", "valueOf", "__proto__", "toLocaleString"]

/-- The number that `priorityRank[p] || 99` stands for in the subtraction: the rank
of an own key, `99` for a key the object does not have, and `none` (`NaN`) for
an inherited key, whose value is a function or an object. -/
def priorityRank (p : String) : Option Int :=
  if p = "high" then some 1 else if p = "normal" then some 2 else if p = "low" then some 3
  else if p ∈ inheritedKeys then none else some 99

/-- The comparator of the `priority` sort; the sort reads a `NaN` result as `+0`. -/
def comparePriority (a b : Task) : Int :=
  match priorityRank a.priority, priorityRank b.priority with
  | some x, some y => x - y
  | _, _ => 0

/-- The list `finalTasks` that `renderTasks()` displays. -/
def renderTasks (rt : JsRuntime) (s : State) : List Task :=
  let filteredTasks := searchFilter rt s.searchQuery (statusFilter s.currentFilter s.tasks)
  if s.sortOption = "dueDate" then jsSort (compareDueDate rt) filteredTasks
  else if s.sortOption = "priority" then jsSort comparePriority filteredTasks
  else filteredTasks

/-! ## Event handlers -/

/-- The values of the four form fields at the moment of a submit. -/
structure FormInput where
  title : String
  description : String
  dueDate : String
  priority : String
deriving DecidableEq, Repr

/-- How the submit handler ended: with the alert "Title is required." or by
saving. -/
inductive SubmitOutcome where
  | titleRequired
  | saved
deriving DecidableEq, Repr

/-- The task the create branch builds. -/
def newTask (now : Int) (title description dueDate priority : String) : Task :=
  { id := now, title := title, description := some description, dueDate := some dueDate,
    priority := priority, completed := false }

/-- The record `{...task, title, description, dueDate, priority}` of the update branch. -/
def editedTask (task : Task) (title description dueDate priority : String) : Task :=
  { task with title := title, description := some description, dueDate := some dueDate,
              priority := priority }

/-- The submit handler of the form; `now` is the reading of `Date.now()`. -/
def submit (s : State) (f : FormInput) (now : Int) : State × SubmitOutcome :=
  let title := jsTrim f.title
  let description := jsTrim f.description
  let dueDate := f.dueDate
  let priority := f.priority
  if title == "" then (s, SubmitOutcome.titleRequired)
  else
    let s1 : State :=
      match s.isEditing, s.editTaskId with
      | true, some editTaskId =>
        { s with tasks := s.tasks.map fun task =>
            if task.id = editTaskId then editedTask task title description dueDate priority
            else task }
      | _, _ => { s with tasks := s.tasks ++ [newTask now title description dueDate priority] }
    (resetFormState (saveTasks s1), SubmitOutcome.saved)

/-- The click handler of the list, on an Edit button carrying `id`. -/
def clickEdit (s : State) (id : Int) : State :=
  match s.tasks.find? fun task => task.id == id with
  | none => s
  | some _ => { s with isEditing := true, editTaskId := some id }

/-- The click handler of the list, on a Delete button carrying `id`;
`confirmDelete` is the answer to the confirmation dialog. -/
def clickDelete (s : State) (id : Int) (confirmDelete : Bool) : State :=
  if !confirmDelete then s
  else
    let s1 := saveTasks { s with tasks := s.tasks.filter fun task => task.id != id }
    if s1.isEditing && s1.editTaskId == some id then resetFormState s1 else s1

/-- The change handler of the list, on the checkbox carrying `id`. -/
def toggleCompleted (s : State) (id : Int) (isChecked : Bool) : State :=
  saveTasks { s with tasks := s.tasks.map fun task =>
    if task.id = id then { task with completed := isChecked } else task }

/-- The click handler of a filter button whose text is `textContent`. -/
def filterClick (rt : JsRuntime) (s : State) (textContent : String) : State :=
  let text := rt.toLowerCase (jsTrim textContent)
  if text = "pending" then { s with currentFilter := "pending" }
  else if text = "completed" then { s with currentFilter := "completed" }
  else { s with currentFilter := "all" }

/-- The input handler of the search box. -/
def searchInput (s : State) (value : String) : State := { s with searchQuery := value }

/-- The change handler of the sort select. -/
def sortChange (s : State) (value : String) : State := { s with sortOption := value }

/-- The click handler of "Clear completed"; `confirmClear` is the answer to the
confirmation dialog, which is asked only when some task is completed. -/
def clearCompleted (s : State) (confirmClear : Bool) : State :=
  let hasCompleted := s.tasks.any fun t => t.completed
  if !hasCompleted then s
  else if !confirmClear then s
  else saveTasks { s with tasks := s.tasks.filter fun t => !t.completed }

/-- The events that change the task array or the edit mode. -/
inductive Event where
  | submit (f : FormInput) (now : Int)
  | startEdit (id : Int)
  | delete (id : Int) (confirmDelete : Bool)
  | toggle (id : Int) (isChecked : Bool)
  | clear (confirmClear : Bool)
deriving DecidableEq, Repr

/-- Run the handler of one event. -/
def step (s : State) : Event → State
  | Event.submit f now => (submit s f now).1
  | Event.startEdit id => clickEdit s id
  | Event.delete id c => clickDelete s id c
  | Event.toggle id b => toggleCompleted s id b
  | Event.clear c => clearCompleted s c

/-- Run the handlers of a sequence of events, in order. -/
def run (s : State) (es : List Event) : State := es.foldl step s

/-! ## Loading the tasks at startup -/

/-- The errors the top-level script can raise while loading. -/
inductive JsError where
  | syntaxError
deriving DecidableEq, Repr

/-- JSON white space: tab, line feed, carriage return, space. -/
def isJsonSpace (c : Char) : Bool :=
  c.toNat == 0x09 || c.toNat == 0x0A || c.toNat == 0x0D || c.toNat == 0x20

/-- Drop the JSON white space at the front. -/
def skipJsonSpace (cs : List Char) : List Char := cs.dropWhile isJsonSpace

/-- A decimal digit. -/
def isDigitChar (c : Char) : Bool := decide (48 ≤ c.toNat) && decide (c.toNat ≤ 57)

/-- A hexadecimal digit, in either case. -/
def isHexChar (c : Char) : Bool :=
  isDigitChar c || (decide (65 ≤ c.toNat) && decide (c.toNat ≤ 70)) ||
  (decide (97 ≤ c.toNat) && decide (c.toNat ≤ 102))

/-- The letters that may follow a backslash in a JSON string, `u` apart. -/
def isEscapeChar (e : Char) : Bool :=
  e == '"' || e == '\\' || e == '/' || e == 'b' || e == 'f' || e == 'n' || e == 'r' || e == 't'

/-- Read a JSON string after its opening quote: what follows the closing quote,
or `none` when the text is not a string. -/
def skipString : List Char → Option (List Char)
  | [] => none
  | '"' :: rest => some rest
  | '\\' :: 'u' :: a :: b :: c :: d :: rest =>
    if isHexChar a && isHexChar b && isHexChar c && isHexChar d then skipString rest else none
  | '\\' :: e :: rest => if isEscapeChar e then skipString rest else none
  | ch :: rest => if ch.toNat < 0x20 ∨ ch = '\\' then none else skipString rest

/-- Read a JSON number: what follows it, or `none` when no number starts the
text. -/
def skipNumber (cs : List Char) : Option (List Char) :=
  let cs1 := if cs.head? == some '-' then cs.drop 1 else cs
  let intDigits := cs1.takeWhile isDigitChar
  let cs2 := cs1.dropWhile isDigitChar
  if intDigits.isEmpty || (intDigits.head? == some '0' && decide (1 < intDigits.length)) then none
  else
    let hasFrac := cs2.head? == some '.'
    let fracDigits := if hasFrac then (cs2.drop 1).takeWhile isDigitChar else []
    let cs3 := if hasFrac then (cs2.drop 1).dropWhile isDigitChar else cs2
    if hasFrac && fracDigits.isEmpty then none
    else
      let hasExp := cs3.head? == some 'e' || cs3.head? == some 'E'
      let cs4 := if hasExp then cs3.drop 1 else cs3
      let cs5 := if hasExp && (cs4.head? == some '-' || cs4.head? == some '+') then cs4.drop 1
                 else cs4
      let expDigits := if hasExp then cs5.takeWhile isDigitChar else []
      let cs6 := if hasExp then cs5.dropWhile isDigitChar else cs5
      if hasExp && expDigits.isEmpty then none else some cs6

/-- Read the elements of an array after the first one, up to the closing bracket;
`item` reads one value. -/
def skipElements (item : List Char → Option (List Char)) :
    Nat → List Char → Option (List Char)
  | 0, _ => none
  | fuel + 1, cs =>
    match skipJsonSpace cs with
    | ']' :: rest => some rest
    | ',' :: rest =>
      match item rest with
      | some rest2 => skipElements item fuel rest2
      | none => none
    | _ => none

/-- Read one `"key": value` member of an object. -/
def skipMember (item : List Char → Option (List Char)) (cs : List Char) :
    Option (List Char) :=
  match skipJsonSpace cs with
  | '"' :: rest =>
    match skipString rest with
    | some rest2 =>
      match skipJsonSpace rest2 with
      | ':' :: rest3 => item rest3
      | _ => none
    | none => none
  | _ => none

/-- Read the members of an object after the first one, up to the closing brace. -/
def skipMembers (item : List Char → Option (List Char)) :
    Nat → List Char → Option (List Char)
  | 0, _ => none
  | fuel + 1, cs =>
    match skipJsonSpace cs with
    | '}' :: rest => some rest
    | ',' :: rest =>
      match skipMember item rest with
      | some rest2 => skipMembers item fuel rest2
      | none => none
    | _ => none

/-- Read one JSON value, with the white space before it: what follows it, or
`none` when no value starts the text. `fuel` bounds the nesting depth and the
number of elements of each array or object. -/
def skipValue : Nat → List Char → Option (List Char)
  | 0, _ => none
  | fuel + 1, cs =>
    match skipJsonSpace cs with
    | 'n' :: 'u' :: 'l' :: 'l' :: rest => some rest
    | 't' :: 'r' :: 'u' :: 'e' :: rest => some rest
    | 'f' :: 'a' :: 'l' :: 's' :: 'e' :: rest => some rest
    | '"' :: rest => skipString rest
    | '[' :: rest =>
      match skipJsonSpace rest with
      | ']' :: rest2 => some rest2
      | _ =>
        match skipValue fuel rest with
        | some rest2 => skipElements (skipValue fuel) fuel rest2
        | none => none
    | '{' :: rest =>
      match skipJsonSpace rest with
      | '}' :: rest2 => some rest2
      | _ =>
        match skipMember (skipValue fuel) rest with
        | some rest2 => skipMembers (skipValue fuel) fuel rest2
        | none => none
    | other => skipNumber other

/-- Whether `JSON.parse` accepts the text: one JSON value with nothing but white
space around it. The fuel, the length of the text plus one, exceeds every depth
and every element count the text can have. -/
def isJsonText (text : String) : Bool :=
  match skipValue (text.length + 1) text.data with
  | some rest => (skipJsonSpace rest).isEmpty
  | none => false

/-- What lies with the host when a JSON text is parsed and the result tested by
`||`: the value `JSON.parse` builds from a text it accepts, the truthiness of a
value, and the value of the literal `[]`. -/
structure JsonHost (V : Type) where
  value : String → V
  truthy : V → Bool
  emptyArray : V

/-- `JSON.parse(text)`: the value of the text, or a syntax error when the text is
not JSON. -/
def jsonParse {V : Type} (host : JsonHost V) (text : String) : Except JsError V :=
  if isJsonText text then Except.ok (host.value text) else Except.error JsError.syntaxError

/-- The text `JSON.parse` is given: the entry of `localStorage.getItem("tasks")`,
or the text `null` (the string conversion of `null`) when the entry is absent. -/
def storedText : Option String → String
  | some content => content
  | none => "null"

/-- The initial value of `tasks`: `JSON.parse(localStorage.getItem("tasks")) || []`. -/
def loadTasks {V : Type} (host : JsonHost V) (entry : Option String) : Except JsError V :=
  match jsonParse host (storedText entry) with
  | Except.ok v => Except.ok (if host.truthy v then v else host.emptyArray)
  | Except.error e => Except.error e

/-! ## Vocabulary of the properties -/

/-- The edit-mode invariant: in edit mode on some id, the store holds a task
with that id. -/
def EditTargetPresent (s : State) : Prop :=
  ∀ id, s.isEditing = true → s.editTaskId = some id → ∃ t ∈ s.tasks, t.id = id

/-- The time value a task is sorted by: that of its due date when it has one
(a truthy `dueDate`), `none` when it has none. -/
def dueTime (rt : JsRuntime) (t : Task) : Option Int :=
  if truthy t.dueDate then rt.dateValue (orEmpty t.dueDate) else none

/-- The sort key of the `dueDate` order: the time value, with tasks without a
due date at the top. -/
def dueKey (rt : JsRuntime) (t : Task) : WithTop Int :=
  match dueTime rt t with
  | some x => (x : WithTop Int)
  | none => ⊤

/-- Whether two tasks tie in the `dueDate` order: equal time values, or both
without a due date. -/
def sameDue (rt : JsRuntime) (t u : Task) : Bool := dueTime rt u == dueTime rt t

/-! ## A concrete runtime -/

/-- The value of a decimal digit. -/
def digitValue (c : Char) : Option Nat :=
  if 48 ≤ c.toNat ∧ c.toNat ≤ 57 then some (c.toNat - 48) else none

/-- The number written by a list of decimal digits. -/
def digitsValue (cs : List Char) : Option Nat :=
  cs.foldl (fun acc c => acc.bind fun n => (digitValue c).map fun d => 10 * n + d) (some 0)

/-- The number of days in month `m` of year `y` (proleptic Gregorian calendar). -/
def daysInMonth (y m : Nat) : Nat :=
  if m = 2 then (if y % 4 = 0 ∧ (y % 100 ≠ 0 ∨ y % 400 = 0) then 29 else 28)
  else if m = 4 ∨ m = 6 ∨ m = 9 ∨ m = 11 then 30 else 31

/-- The number of days from 1970-01-01 to the given civil date. -/
def daysFromCivil (y m d : Nat) : Int :=
  let yN := y + 400 - (if m ≤ 2 then 1 else 0)
  let era := yN / 400
  let yoe := yN % 400
  let mp := (m + 9) % 12
  let doy := (153 * mp + 2) / 5 + d - 1
  let doe := yoe * 365 + yoe / 4 - yoe / 100 + doy
  ((era * 146097 + doe : Nat) : Int) - 865565

/-- The time value of a date-only ISO string `YYYY-MM-DD` (midnight UTC, in
milliseconds), the form a date input yields; `none` for any other string. -/
def isoDateValue (s : String) : Option Int :=
  match s.data with
  | [y1, y2, y3, y4, '-', m1, m2, '-', d1, d2] =>
    match digitsValue [y1, y2, y3, y4], digitsValue [m1, m2], digitsValue [d1, d2] with
    | some y, some m, some d =>
      if 1 ≤ m ∧ m ≤ 12 ∧ 1 ≤ d ∧ d ≤ daysInMonth y m then
        some (daysFromCivil y m d * 86400000)
      else none
    | _, _, _ => none
  | _ => none

/-- A runtime for concrete evaluation: ASCII lower-casing, and the time values of
date-only ISO strings. -/
def asciiRuntime : JsRuntime :=
  { toLowerCase := fun s => ⟨s.data.map Char.toLower⟩,
    dateValue := isoDateValue }

/-! ## Concrete inputs used below -/

/-- A form holding the title "Buy milk" and nothing else of note. -/
def milkForm : FormInput :=
  { title := "Buy milk", description := "", dueDate := "", priority := "normal" }

/-- A form holding a new title, description, due date and priority. -/
def breadForm : FormInput :=
  { title := " Buy bread ", description := " rye ", dueDate := "2024-05-01", priority := "high" }

/-- A session that creates a task at clock reading `1000`, ticks it as
completed, opens it in the edit form and then clears the completed tasks. -/
def staleEditEvents : List Event :=
  [Event.submit milkForm 1000, Event.toggle 1000 true, Event.startEdit 1000, Event.clear true]

/-- The state that session ends in, from an empty start. -/
def staleEditState : State := run (initialState []) staleEditEvents

/-- A two-task store in edit mode on the task with id `2`. -/
def editingState : State :=
  { tasks := [{ id := 1, title := "A", description := some "", dueDate := some "",
                priority := "high", completed := false },
              { id := 2, title := "B", description := some "", dueDate := some "",
                priority := "low", completed := true }],
    isEditing := true, editTaskId := some 2, currentFilter := "all", searchQuery := "",
    sortOption := "none", stored := none }

/-- Two creates that read the same value from `Date.now()`. -/
def sameClockEvents : List Event :=
  [Event.submit milkForm 1700000000000, Event.submit breadForm 1700000000000]

/-- Three tasks for trying the search out. -/
def searchTasks : List Task :=
  [{ id := 1, title := "Buy Milk", description := some "", dueDate := some "2024-05-03",
     priority := "high", completed := false },
   { id := 2, title := "Call Bob", description := some "about the MILK run", dueDate := none,
     priority := "low", completed := true },
   { id := 3, title := "Walk", description := none, dueDate := some "2024-05-02",
     priority := "normal", completed := false }]

/-- A store to try the `dueDate` sort on. -/
def dueState : State :=
  { tasks := searchTasks ++
      [{ id := 4, title := "Dentist", description := some "", dueDate := some "2024-05-02",
         priority := "x", completed := false },
       { id := 5, title := "Read", description := some "", dueDate := some "",
         priority := "low", completed := false }],
    isEditing := false, editTaskId := none, currentFilter := "all", searchQuery := "",
    sortOption := "dueDate", stored := none }

/-- The text `saveTasks` writes for a store holding one task. -/
def storedTaskText : String :=
  "[\x7b\"id\":1700000000000,\"title\":\"A\",\"description\":\"\",\"dueDate\":\"2024-05-01\",\"priority\":\"high\",\"completed\":false\x7d]"

/-- That text cut off after the title: content that is not JSON. -/
def truncatedTaskText : String := "[\x7b\"id\":1700000000000,\"title\":\"A\""

/-- Three creates with the due dates 3 May, an unreadable text and 1 May. -/
def garbageDateEvents : List Event :=
  [Event.submit { title := "A", description := "", dueDate := "2024-05-03",
                  priority := "normal" } 1,
   Event.submit { title := "B", description := "", dueDate := "garbage",
                  priority := "normal" } 2,
   Event.submit { title := "C", description := "", dueDate := "2024-05-01",
                  priority := "normal" } 3]

/-- The state after those creates, with the sort select set to `dueDate`. -/
def garbageDateState : State :=
  sortChange (run (initialState []) garbageDateEvents) "dueDate"

/-- Tasks whose priorities are an inherited key, `low` and `high`. -/
def inheritedKeyState : State :=
  { tasks := [{ id := 1, title := "A", description := some "", dueDate := some "",
                priority := "toString", completed := false },
              { id := 2, title := "B", description := some "", dueDate := some "",
                priority := "low", completed := false },
              { id := 3, title := "C", description := some "", dueDate := some "",
                priority := "high", completed := false }],
    isEditing := false, editTaskId := none, currentFilter := "all", searchQuery := "",
    sortOption := "priority", stored := none }

/-! ## Facts about the string helpers -/

theorem trimChars_eq_nil_of_blank (l : List Char)
    (h : ∀ c ∈ l, isJsWhitespace c = true) : trimChars l = [] := by
  have h1 : l.dropWhile isJsWhitespace = [] := List.dropWhile_eq_nil_iff.mpr h
  simp [trimChars, h1]

theorem blank_of_trimChars_eq_nil (l : List Char) (h : trimChars l = []) :
    ∀ c ∈ l, isJsWhitespace c = true := by
  unfold trimChars at h
  rw [List.reverse_eq_nil_iff, List.dropWhile_eq_nil_iff] at h
  have hall : ∀ c ∈ l.dropWhile isJsWhitespace, isJsWhitespace c = true := by
    intro c hc
    exact h c (List.mem_reverse.mpr hc)
  cases hd : l.dropWhile isJsWhitespace with
  | nil => exact List.dropWhile_eq_nil_iff.mp hd
  | cons a t =>
    have ha : isJsWhitespace a = true := hall a (by rw [hd]; exact List.mem_cons_self a t)
    have hhead := List.head_dropWhile_not isJsWhitespace l (by rw [hd]; simp)
    simp [hd, ha] at hhead

/-- A string trims to the empty string exactly when it is empty or made of white
space only. -/
theorem jsTrim_eq_empty_iff (s : String) :
    jsTrim s = "" ↔ ∀ c ∈ s.data, isJsWhitespace c = true := by
  constructor
  · intro h
    apply blank_of_trimChars_eq_nil
    have := congrArg String.data h
    simpa [jsTrim] using this
  · intro h
    simp [jsTrim, trimChars_eq_nil_of_blank s.data h]

/-! ## The submit handler -/

/-- C1: a submit whose title field is empty or holds white space only ends with
the "Title is required." alert and leaves the state, hence the task array, its
length and its order, exactly as it was; nothing is appended. This holds in
every state, in and outside edit mode. -/
theorem submit_blank_title_rejected (s : State) (f : FormInput) (now : Int)
    (hblank : ∀ c ∈ f.title.data, isJsWhitespace c = true) :
    (submit s f now).2 = SubmitOutcome.titleRequired ∧
    (submit s f now).1 = s ∧
    (submit s f now).1.tasks = s.tasks ∧
    (submit s f now).1.tasks.length = s.tasks.length := by
  have ht : jsTrim f.title = "" := (jsTrim_eq_empty_iff f.title).mpr hblank
  simp [submit, ht]

theorem submit_blank_title_rejected_witness :
    (submit editingState (FormInput.mk " \t " "d" "" "high") 7).2
      = SubmitOutcome.titleRequired ∧
    (submit editingState (FormInput.mk " \t " "d" "" "high") 7).1.tasks
      = editingState.tasks :=
  ⟨(submit_blank_title_rejected editingState (FormInput.mk " \t " "d" "" "high") 7
      (by decide)).1,
   (submit_blank_title_rejected editingState (FormInput.mk " \t " "d" "" "high") 7
      (by decide)).2.2.1⟩

/-- C3: in edit mode on an id the store holds, a submit with a non-empty trimmed
title saves; the array keeps its length; at every position a task with that id
carries the (trimmed) title and description and the due date and priority of
the form while keeping its id and completed flag, and a task with another id is
unchanged; the edited task is still in the store. -/
theorem submit_edit_updates_in_place (s : State) (f : FormInput) (now id : Int)
    (hedit : s.isEditing = true) (hid : s.editTaskId = some id)
    (hpresent : ∃ t ∈ s.tasks, t.id = id)
    (htitle : jsTrim f.title ≠ "") :
    (submit s f now).2 = SubmitOutcome.saved ∧
    (submit s f now).1.tasks.length = s.tasks.length ∧
    (∀ (i : Nat) (t : Task), s.tasks[i]? = some t →
      (t.id = id → (submit s f now).1.tasks[i]? = some
        { id := t.id, title := jsTrim f.title, description := some (jsTrim f.description),
          dueDate := some f.dueDate, priority := f.priority, completed := t.completed }) ∧
      (t.id ≠ id → (submit s f now).1.tasks[i]? = some t)) ∧
    (∃ t ∈ (submit s f now).1.tasks, t.id = id ∧ t.title = jsTrim f.title ∧
      t.description = some (jsTrim f.description) ∧ t.dueDate = some f.dueDate ∧
      t.priority = f.priority) := by
  have h2 : (submit s f now).2 = SubmitOutcome.saved := by
    simp [submit, htitle, hedit, hid]
  have h1 : (submit s f now).1.tasks = s.tasks.map (fun task => if task.id = id
      then editedTask task (jsTrim f.title) (jsTrim f.description) f.dueDate f.priority
      else task) := by
    simp [submit, htitle, hedit, hid, resetFormState, saveTasks]
  rw [h1]
  refine ⟨h2, by simp, ?_, ?_⟩
  · intro i t hit
    constructor
    · intro hti
      simp [List.getElem?_map, hit, hti, editedTask]
    · intro hti
      simp [List.getElem?_map, hit, hti]
  · obtain ⟨t, ht, hti⟩ := hpresent
    refine ⟨editedTask t (jsTrim f.title) (jsTrim f.description) f.dueDate f.priority, ?_, ?_⟩
    · simp only [List.mem_map]
      exact ⟨t, ht, by simp [hti]⟩
    · simp [editedTask, hti]

theorem submit_edit_updates_in_place_witness :
    (submit editingState breadForm 5).1.tasks.length = editingState.tasks.length :=
  (submit_edit_updates_in_place editingState breadForm 5 2 rfl rfl
    ⟨_, List.mem_cons_of_mem _ (List.mem_cons_self _ _), rfl⟩ (by decide)).2.1

/-- C4 (as the code behaves): in edit mode on an id that no task has, a submit
with a non-empty trimmed title does not fail: it ends by saving, leaves every
task as it was, writes the unchanged array to storage and leaves edit mode. -/
theorem submit_edit_absent_id_saves (s : State) (f : FormInput) (now id : Int)
    (hedit : s.isEditing = true) (hid : s.editTaskId = some id)
    (habsent : ∀ t ∈ s.tasks, t.id ≠ id)
    (htitle : jsTrim f.title ≠ "") :
    (submit s f now).2 = SubmitOutcome.saved ∧
    (submit s f now).1.tasks = s.tasks ∧
    (submit s f now).1.stored = some s.tasks ∧
    (submit s f now).1.isEditing = false ∧
    (submit s f now).1.editTaskId = none := by
  have hmap : s.tasks.map (fun task => if task.id = id
      then editedTask task (jsTrim f.title) (jsTrim f.description) f.dueDate f.priority
      else task) = s.tasks := by
    conv_rhs => rw [← List.map_id s.tasks]
    apply List.map_congr_left
    intro t ht
    simp [habsent t ht]
  simp [submit, htitle, hedit, hid, resetFormState, saveTasks, hmap]

theorem submit_edit_absent_id_saves_witness :
    (submit staleEditState breadForm 2000).2 = SubmitOutcome.saved :=
  (submit_edit_absent_id_saves staleEditState breadForm 2000 1000 (by decide) (by decide)
    (by decide) (by decide)).1

/-- C4, the claim as written, refuted: the state reached by creating a task,
completing it, opening it for edit and clearing the completed tasks is in edit
mode on id `1000`, which no task has; a submit with the title " Buy bread "
there ends by saving, not with an error. -/
theorem submit_edit_absent_id_counterexample :
    staleEditState.isEditing = true ∧ staleEditState.editTaskId = some 1000 ∧
    (∀ t ∈ staleEditState.tasks, t.id ≠ 1000) ∧ jsTrim breadForm.title ≠ "" ∧
    (submit staleEditState breadForm 2000).2 = SubmitOutcome.saved ∧
    (submit staleEditState breadForm 2000).1.tasks = [] := by
  decide

/-! ## Clearing the completed tasks -/

/-- C5: a confirmed "Clear completed" leaves exactly the tasks whose completed flag
is false: the result is the array filtered on that flag, so a task is in the
result exactly when it was in the store and is not completed, no kept task is
modified, and the kept tasks are in their original relative order. -/
theorem clearCompleted_keeps_pending (s : State) :
    (clearCompleted s true).tasks = s.tasks.filter (fun t => !t.completed) ∧
    (∀ t, t ∈ (clearCompleted s true).tasks ↔ t ∈ s.tasks ∧ t.completed = false) ∧
    (∀ t ∈ (clearCompleted s true).tasks, t.completed = false) ∧
    List.Sublist (clearCompleted s true).tasks s.tasks := by
  have h : (clearCompleted s true).tasks = s.tasks.filter (fun t => !t.completed) := by
    unfold clearCompleted
    by_cases hc : (s.tasks.any fun t => t.completed) = true
    · simp [hc, saveTasks]
    · have hnone : ∀ t ∈ s.tasks, t.completed = false := by
        intro t ht
        by_contra hne
        apply hc
        exact List.any_eq_true.mpr ⟨t, ht, by simpa using hne⟩
      have hf : s.tasks.filter (fun t => !t.completed) = s.tasks := by
        apply List.filter_eq_self.mpr
        intro t ht
        simp [hnone t ht]
      simp only [Bool.not_eq_true] at hc
      simp [hc, hf]
  refine ⟨h, ?_, ?_, ?_⟩
  · intro t
    rw [h]
    simp [List.mem_filter]
  · intro t ht
    rw [h] at ht
    simpa using (List.mem_filter.mp ht).2
  · rw [h]
    exact List.filter_sublist s.tasks

/-! ## The counters -/

theorem length_filter_add_length_filter_not (l : List Task) :
    (l.filter fun t => t.completed).length + (l.filter fun t => !t.completed).length
      = l.length := by
  induction l with
  | nil => rfl
  | cons a l ih =>
    cases ha : a.completed <;> simp [List.filter_cons, ha] <;> omega

/-- C8: the counters of `updateStats` satisfy `pending + completed = total`; the total
is the length of the whole array, `completed` is the number of tasks whose flag
is true and `pending` the number of those whose flag is false; and the three
counters are the same whatever the filter, the search text and the sort option
are. -/
theorem updateStats_counts (s : State) :
    (updateStats s).pending + (updateStats s).completed = (updateStats s).total ∧
    (updateStats s).total = s.tasks.length ∧
    (updateStats s).completed = (s.tasks.filter fun t => t.completed).length ∧
    (updateStats s).pending = (s.tasks.filter fun t => !t.completed).length ∧
    (∀ (currentFilter searchQuery sortOption : String),
      updateStats { s with currentFilter := currentFilter, searchQuery := searchQuery,
                           sortOption := sortOption } = updateStats s) ∧
    (∀ (rt : JsRuntime) (text : String), updateStats (filterClick rt s text) = updateStats s) ∧
    (∀ value : String, updateStats (searchInput s value) = updateStats s) ∧
    (∀ value : String, updateStats (sortChange s value) = updateStats s) := by
  have hsum := length_filter_add_length_filter_not s.tasks
  refine ⟨by simp [updateStats], rfl, rfl, ?_, fun _ _ _ => rfl, ?_, fun _ => rfl,
    fun _ => rfl⟩
  · simp only [updateStats]
    omega
  · intro rt text
    unfold filterClick
    dsimp only
    split_ifs <;> rfl

/-- The two-task scenario: with the filter `pending` only task A is displayed,
while the counters read total 2, pending 1, completed 1. -/
theorem updateStats_scenario :
    (renderTasks asciiRuntime { editingState with currentFilter := "pending" }).map
      (fun t => t.title) = ["A"] ∧
    (updateStats { editingState with currentFilter := "pending" }).total = 2 ∧
    (updateStats { editingState with currentFilter := "pending" }).pending = 1 ∧
    (updateStats { editingState with currentFilter := "pending" }).completed = 1 := by
  decide

/-! ## Identifiers -/

/-- A create whose clock reading is not yet an id of the store keeps the ids
pairwise distinct. -/
theorem create_fresh_id_nodup (s : State) (f : FormInput) (now : Int)
    (hmode : s.isEditing = false) (htitle : jsTrim f.title ≠ "")
    (hfresh : ∀ t ∈ s.tasks, t.id ≠ now) (hnodup : (s.tasks.map fun t => t.id).Nodup) :
    ((submit s f now).1.tasks.map fun t => t.id).Nodup := by
  have h1 : (submit s f now).1.tasks =
      s.tasks ++ [newTask now (jsTrim f.title) (jsTrim f.description) f.dueDate f.priority] := by
    simp [submit, htitle, hmode, resetFormState, saveTasks]
  rw [h1, List.map_append, List.nodup_append]
  refine ⟨hnodup, by simp, ?_⟩
  intro a ha hb
  simp only [List.map_cons, List.map_nil, List.mem_singleton, newTask] at hb
  obtain ⟨t, ht, hta⟩ := List.mem_map.mp ha
  exact hfresh t ht (hta.trans hb)

/-- C2, the code at the failing input: two valid creates that read the same value
from `Date.now()` both succeed and give both tasks the same id, so the ids of
the store, distinct (there were none) before, are no longer pairwise distinct. -/
theorem create_same_clock_duplicate_ids :
    ((run (initialState []) sameClockEvents).tasks.map fun t => t.id)
      = [1700000000000, 1700000000000] ∧
    ((run (initialState []) sameClockEvents).tasks.map fun t => t.title)
      = ["Buy milk", "Buy bread"] ∧
    ¬ ((run (initialState []) sameClockEvents).tasks.map fun t => t.id).Nodup := by
  decide

/-! ## Edit mode -/

/-- Every handler other than a confirmed "Clear completed" keeps the edit-mode
invariant. -/
theorem editTargetPresent_step (s : State) (e : Event) (hclear : e ≠ Event.clear true)
    (hinv : EditTargetPresent s) : EditTargetPresent (step s e) := by
  cases e with
  | submit f now =>
    by_cases ht : (jsTrim f.title == "") = true
    · have hs : step s (Event.submit f now) = s := by simp [step, submit, ht]
      rw [hs]
      exact hinv
    · intro id he _
      simp [step, submit, ht, resetFormState] at he
  | startEdit eid =>
    intro id he hi
    simp only [step, clickEdit] at he hi ⊢
    cases hfind : s.tasks.find? (fun task => task.id == eid) with
    | none =>
      rw [hfind] at he hi
      simp only [hfind]
      exact hinv id he hi
    | some t =>
      rw [hfind] at hi
      simp only [hfind]
      have hmem := List.mem_of_find?_eq_some hfind
      have hp := List.find?_some hfind
      simp only [Option.some.injEq] at hi
      exact ⟨t, hmem, by rw [← hi]; simpa using hp⟩
  | delete did c =>
    intro id he hi
    cases c with
    | false =>
      have hs : step s (Event.delete did false) = s := by simp [step, clickDelete]
      rw [hs] at he hi ⊢
      exact hinv id he hi
    | true =>
      simp only [step, clickDelete, saveTasks] at he hi ⊢
      by_cases hsame : (s.isEditing && s.editTaskId == some did) = true
      · simp [hsame, resetFormState] at he
      · simp only [hsame] at he hi ⊢
        simp only [Bool.not_true, Bool.false_eq_true, if_false] at he hi ⊢
        obtain ⟨t, ht, hti⟩ := hinv id he hi
        refine ⟨t, ?_, hti⟩
        simp only [List.mem_filter, ht, true_and]
        have hne : id ≠ did := by
          intro h
          apply hsame
          simp [he, hi, h]
        simpa [hti] using hne
  | toggle tid b =>
    intro id he hi
    simp only [step, toggleCompleted, saveTasks] at he hi ⊢
    obtain ⟨t, ht, hti⟩ := hinv id he hi
    refine ⟨if t.id = tid then { t with completed := b } else t, ?_, ?_⟩
    · exact List.mem_map.mpr ⟨t, ht, rfl⟩
    · split_ifs <;> simpa using hti
  | clear c =>
    cases c with
    | true => exact absurd rfl hclear
    | false =>
      intro id he hi
      have hs : step s (Event.clear false) = s := by
        simp [step, clearCompleted]
      rw [hs] at he hi ⊢
      exact hinv id he hi

theorem editTargetPresent_step_witness :
    EditTargetPresent (step (initialState []) (Event.submit milkForm 1000)) :=
  editTargetPresent_step (initialState []) (Event.submit milkForm 1000) (by decide)
    (by intro id he; simp [initialState] at he)

/-- C10, the code at the failing input: from the empty start, create a task (clock
reading `1000`), tick it as completed, open it in the edit form and confirm
"Clear completed". The state reached is in edit mode on id `1000` although the
store, now empty, holds no task with that id; the edit then submitted ends by
saving and changes no task. -/
theorem clear_leaves_stale_edit :
    (run (initialState []) staleEditEvents).isEditing = true ∧
    (run (initialState []) staleEditEvents).editTaskId = some 1000 ∧
    (run (initialState []) staleEditEvents).tasks = [] ∧
    ¬ EditTargetPresent (run (initialState []) staleEditEvents) ∧
    (submit (run (initialState []) staleEditEvents) breadForm 2000).2 = SubmitOutcome.saved ∧
    (submit (run (initialState []) staleEditEvents) breadForm 2000).1.tasks = [] := by
  refine ⟨by decide, by decide, by decide, ?_, by decide, by decide⟩
  intro h
  obtain ⟨t, ht, _⟩ := h 1000 (by decide) (by decide)
  have hnil : (run (initialState []) staleEditEvents).tasks = [] := by decide
  rw [hnil] at ht
  exact List.not_mem_nil t ht

/-! ## The search stage -/

/-- The executable substring test agrees with the existence of a split of the
text around the pattern. -/
theorem includesChars_iff (q s : List Char) :
    includesChars q s = true ↔ ∃ pre post, s = pre ++ q ++ post := by
  induction s with
  | nil =>
    simp only [includesChars, List.isPrefixOf_iff_prefix]
    constructor
    · rintro ⟨t, ht⟩
      exact ⟨[], t, by simpa using ht.symm⟩
    · rintro ⟨pre, post, h⟩
      have h1 : pre = [] ∧ q = [] ∧ post = [] := by
        simpa [List.append_eq_nil, and_assoc] using h.symm
      exact ⟨[], by simp [h1.2.1]⟩
  | cons c s ih =>
    simp only [includesChars, Bool.or_eq_true, List.isPrefixOf_iff_prefix, ih]
    constructor
    · rintro (⟨t, ht⟩ | ⟨pre, post, h⟩)
      · exact ⟨[], t, by simpa using ht.symm⟩
      · exact ⟨c :: pre, post, by simp [h]⟩
    · rintro ⟨pre, post, h⟩
      cases pre with
      | nil => exact Or.inl ⟨post, by simpa using h.symm⟩
      | cons a pre =>
        right
        simp only [List.cons_append, List.cons.injEq] at h
        exact ⟨pre, post, h.2⟩

theorem includes_iff (s q : String) :
    includes s q = true ↔ ∃ pre post, s.data = pre ++ q.data ++ post :=
  includesChars_iff q.data s.data

theorem includes_empty_left (q : String) (hq : q ≠ "") : includes "" q = false := by
  cases hi : includes "" q with
  | false => rfl
  | true =>
    exfalso
    obtain ⟨pre, post, h⟩ := (includes_iff "" q).mp hi
    have h1 : pre = [] ∧ q.data = [] ∧ post = [] := by
      have h0 : ("" : String).data = [] := rfl
      rw [h0] at h
      simpa [List.append_eq_nil, and_assoc] using h.symm
    apply hq
    exact String.ext h1.2.1

/-- C7: let `q` be the trimmed, lower-cased search text.
If `q` is non-empty, the search stage is the filter of the list (so the kept
tasks are in their existing order) on: the lower-cased title or the lower-cased
description contains `q` as a contiguous block; a task whose description is
empty or absent is kept exactly when its lower-cased title contains `q`.
If the search text is empty or white space only, every task is kept.
(`toLowerCase` maps the empty string to the empty string.) -/
theorem searchFilter_spec (rt : JsRuntime) (hlow : rt.toLowerCase "" = "")
    (searchQuery : String) (tasks : List Task) :
    (rt.toLowerCase (jsTrim searchQuery) ≠ "" →
      searchFilter rt searchQuery tasks
          = tasks.filter (searchMatch rt (rt.toLowerCase (jsTrim searchQuery))) ∧
      List.Sublist (searchFilter rt searchQuery tasks) tasks ∧
      (∀ t, t ∈ searchFilter rt searchQuery tasks ↔ t ∈ tasks ∧
        ((∃ pre post, (rt.toLowerCase t.title).data
            = pre ++ (rt.toLowerCase (jsTrim searchQuery)).data ++ post) ∨
         (∃ pre post, (rt.toLowerCase (orEmpty t.description)).data
            = pre ++ (rt.toLowerCase (jsTrim searchQuery)).data ++ post))) ∧
      (∀ t, truthy t.description = false →
        (t ∈ searchFilter rt searchQuery tasks ↔ t ∈ tasks ∧
          ∃ pre post, (rt.toLowerCase t.title).data
            = pre ++ (rt.toLowerCase (jsTrim searchQuery)).data ++ post))) ∧
    ((∀ c ∈ searchQuery.data, isJsWhitespace c = true) →
      searchFilter rt searchQuery tasks = tasks) := by
  constructor
  · intro hq
    have hdef : searchFilter rt searchQuery tasks
        = tasks.filter (searchMatch rt (rt.toLowerCase (jsTrim searchQuery))) := by
      simp [searchFilter, hq]
    have hmem : ∀ t, t ∈ searchFilter rt searchQuery tasks ↔ t ∈ tasks ∧
        ((∃ pre post, (rt.toLowerCase t.title).data
            = pre ++ (rt.toLowerCase (jsTrim searchQuery)).data ++ post) ∨
         (∃ pre post, (rt.toLowerCase (orEmpty t.description)).data
            = pre ++ (rt.toLowerCase (jsTrim searchQuery)).data ++ post)) := by
      intro t
      rw [hdef, List.mem_filter]
      simp only [searchMatch, Bool.or_eq_true, includes_iff]
    refine ⟨hdef, ?_, hmem, ?_⟩
    · rw [hdef]
      exact List.filter_sublist tasks
    · intro t ht
      rw [hmem t]
      have hdesc : orEmpty t.description = "" := by
        cases hd : t.description with
        | none => rfl
        | some d =>
          rw [hd] at ht
          simpa [truthy, orEmpty] using ht
      have hno : ¬ ∃ pre post, (rt.toLowerCase (orEmpty t.description)).data
          = pre ++ (rt.toLowerCase (jsTrim searchQuery)).data ++ post := by
        intro h
        rw [hdesc, hlow] at h
        have := (includes_iff "" _).mpr h
        rw [includes_empty_left _ hq] at this
        exact Bool.false_ne_true this
      constructor
      · rintro ⟨hm, h | h⟩
        · exact ⟨hm, h⟩
        · exact absurd h hno
      · rintro ⟨hm, h⟩
        exact ⟨hm, Or.inl h⟩
  · intro hblank
    have ht : jsTrim searchQuery = "" := (jsTrim_eq_empty_iff searchQuery).mpr hblank
    simp [searchFilter, ht, hlow]

theorem searchFilter_spec_witness :
    (searchFilter asciiRuntime " MILK " searchTasks
      = searchTasks.filter (searchMatch asciiRuntime
          (asciiRuntime.toLowerCase (jsTrim " MILK ")))) ∧
    (searchFilter asciiRuntime " MILK " searchTasks).map (fun t => t.id) = [1, 2] ∧
    searchFilter asciiRuntime " \t" searchTasks = searchTasks :=
  ⟨((searchFilter_spec asciiRuntime rfl " MILK " searchTasks).1 (by decide)).1,
   by decide,
   (searchFilter_spec asciiRuntime rfl " \t" searchTasks).2 (by decide)⟩

/-! ## The stable sort -/

section StableSort

variable {α : Type}

theorem splitRun_append (cmp : α → α → Int) (d : Bool) (p : α) (l : List α) :
    (splitRun cmp d p l).1 ++ (splitRun cmp d p l).2 = l := by
  induction l generalizing p with
  | nil => rfl
  | cons c l ih =>
    by_cases h : runBreaks d (cmp c p) = true
    · simp [splitRun, h]
    · simp [splitRun, h, ih c]

theorem splitRun_ascending {κ : Type} [LinearOrder κ] (cmp : α → α → Int) (key : α → κ)
    (p : α) (l : List α)
    (hcmp : ∀ a ∈ p :: l, ∀ b ∈ p :: l, (cmp a b < 0 ↔ key a < key b)) :
    (p :: (splitRun cmp false p l).1).Pairwise fun x y => key x ≤ key y := by
  induction l generalizing p with
  | nil => simp [splitRun]
  | cons c l ih =>
    by_cases h : runBreaks false (cmp c p) = true
    · simp [splitRun, h]
    · have hc : key p ≤ key c := by
        have h1 : ¬ cmp c p < 0 := by simpa [runBreaks] using h
        have h2 := hcmp c (by simp) p (by simp)
        exact not_lt.mp (fun hk => h1 (h2.mpr hk))
      have ih2 := ih c (fun a ha b hb => hcmp a (List.mem_cons_of_mem p ha) b
        (List.mem_cons_of_mem p hb))
      simp only [splitRun, h, Bool.false_eq_true, if_false]
      refine List.pairwise_cons.mpr ⟨?_, ih2⟩
      intro y hy
      rcases List.mem_cons.mp hy with rfl | hy
      · exact hc
      · exact le_trans hc ((List.pairwise_cons.mp ih2).1 y hy)

theorem splitRun_descending {κ : Type} [LinearOrder κ] (cmp : α → α → Int) (key : α → κ)
    (p : α) (l : List α)
    (hcmp : ∀ a ∈ p :: l, ∀ b ∈ p :: l, (cmp a b < 0 ↔ key a < key b)) :
    (p :: (splitRun cmp true p l).1).Pairwise fun x y => key y < key x := by
  induction l generalizing p with
  | nil => simp [splitRun]
  | cons c l ih =>
    by_cases h : runBreaks true (cmp c p) = true
    · simp [splitRun, h]
    · have hc : key c < key p := by
        have h1 : cmp c p < 0 := by simpa [runBreaks] using h
        exact (hcmp c (by simp) p (by simp)).mp h1
      have ih2 := ih c (fun a ha b hb => hcmp a (List.mem_cons_of_mem p ha) b
        (List.mem_cons_of_mem p hb))
      simp only [splitRun, h, Bool.false_eq_true, if_false]
      refine List.pairwise_cons.mpr ⟨?_, ih2⟩
      intro y hy
      rcases List.mem_cons.mp hy with rfl | hy
      · exact hc
      · exact lt_trans ((List.pairwise_cons.mp ih2).1 y hy) hc

theorem binaryInsert_perm (cmp : α → α → Int) (pivot : α) (fuel : Nat) (seg : List α) :
    (binaryInsert cmp pivot fuel seg).Perm (pivot :: seg) := by
  induction fuel generalizing seg with
  | zero => exact List.Perm.refl _
  | succ fuel ih =>
    unfold binaryInsert
    have hsplit := List.take_append_drop (seg.length / 2) seg
    generalize seg.take (seg.length / 2) = t at hsplit ⊢
    cases hd : seg.drop (seg.length / 2) with
    | nil => exact List.Perm.refl _
    | cons x after =>
      rw [hd] at hsplit
      dsimp only
      split_ifs
      · have h1 := (ih t).append_right (x :: after)
        rw [List.cons_append, hsplit] at h1
        exact h1
      · have h1 : (t ++ x :: binaryInsert cmp pivot fuel after).Perm
            (t ++ x :: pivot :: after) :=
          List.Perm.append_left _ (List.Perm.cons x (ih after))
        refine h1.trans ?_
        have h2 := @List.perm_middle _ pivot (t ++ [x]) after
        have h3 : t ++ [x] ++ after = seg := by
          rw [← hsplit]
          simp
        rw [h3] at h2
        simpa using h2

theorem mem_binaryInsert (cmp : α → α → Int) (pivot : α) (fuel : Nat) (seg : List α) (y : α) :
    y ∈ binaryInsert cmp pivot fuel seg ↔ y = pivot ∨ y ∈ seg := by
  rw [(binaryInsert_perm cmp pivot fuel seg).mem_iff, List.mem_cons]

/-- Into a segment sorted by key, on which the comparator is the order of the
keys, the binary insertion puts the pivot so that the result is sorted. -/
theorem binaryInsert_pairwise {κ : Type} [LinearOrder κ] (cmp : α → α → Int) (key : α → κ)
    (pivot : α) (fuel : Nat) (seg : List α) (hfuel : seg.length ≤ fuel)
    (hcmp : ∀ b ∈ seg, (cmp pivot b < 0 ↔ key pivot < key b))
    (hseg : seg.Pairwise fun x y => key x ≤ key y) :
    (binaryInsert cmp pivot fuel seg).Pairwise fun x y => key x ≤ key y := by
  induction fuel generalizing seg with
  | zero =>
    have hnil : seg = [] := List.length_eq_zero.mp (Nat.le_zero.mp hfuel)
    simp [binaryInsert, hnil]
  | succ fuel ih =>
    unfold binaryInsert
    have hsplit := List.take_append_drop (seg.length / 2) seg
    have htake : (seg.take (seg.length / 2)).length ≤ fuel := by
      rw [List.length_take]
      omega
    have hdrop : (seg.drop (seg.length / 2)).length = seg.length - seg.length / 2 :=
      List.length_drop _ _
    generalize seg.take (seg.length / 2) = t at hsplit htake ⊢
    cases hd : seg.drop (seg.length / 2) with
    | nil =>
      rw [hd] at hdrop
      have hnil : seg = [] := by
        apply List.length_eq_zero.mp
        simp only [List.length_nil] at hdrop
        omega
      simp [hnil]
    | cons x after =>
      rw [hd] at hsplit hdrop
      have hafter : after.length ≤ fuel := by
        simp only [List.length_cons] at hdrop
        omega
      subst hsplit
      have hp := List.pairwise_append.mp hseg
      have hxa := List.pairwise_cons.mp hp.2.1
      dsimp only
      split_ifs with h
      · have hkx : key pivot < key x := (hcmp x (by simp)).mp h
        refine List.pairwise_append.mpr ⟨ih t htake (fun b hb => hcmp b (by simp [hb])) hp.1,
          hp.2.1, ?_⟩
        intro a ha b hb
        rcases (mem_binaryInsert cmp pivot fuel t a).mp ha with rfl | ha
        · rcases List.mem_cons.mp hb with rfl | hb
          · exact le_of_lt hkx
          · exact le_trans (le_of_lt hkx) (hxa.1 b hb)
        · exact hp.2.2 a ha b hb
      · have hkx : key x ≤ key pivot :=
          not_lt.mp (fun hk => h ((hcmp x (by simp)).mpr hk))
        have hins := ih after hafter (fun b hb => hcmp b (by simp [hb])) hxa.2
        refine List.pairwise_append.mpr ⟨hp.1, List.pairwise_cons.mpr ⟨?_, hins⟩, ?_⟩
        · intro b hb
          rcases (mem_binaryInsert cmp pivot fuel after b).mp hb with rfl | hb
          · exact hkx
          · exact hxa.1 b hb
        · intro a ha b hb
          rcases List.mem_cons.mp hb with rfl | hb
          · exact hp.2.2 a ha b (by simp)
          · rcases (mem_binaryInsert cmp pivot fuel after b).mp hb with rfl | hb
            · exact le_trans (hp.2.2 a ha x (by simp)) hkx
            · exact hp.2.2 a ha b (by simp [hb])

theorem binaryInsert_filter_neg (cmp : α → α → Int) (p : α → Bool) (pivot : α) (fuel : Nat)
    (seg : List α) (hp : p pivot = false) :
    (binaryInsert cmp pivot fuel seg).filter p = seg.filter p := by
  induction fuel generalizing seg with
  | zero => simp [binaryInsert, List.filter_cons, hp]
  | succ fuel ih =>
    unfold binaryInsert
    have hsplit := List.take_append_drop (seg.length / 2) seg
    generalize seg.take (seg.length / 2) = t at hsplit ⊢
    cases hd : seg.drop (seg.length / 2) with
    | nil => simp [List.filter_cons, hp]
    | cons x after =>
      rw [hd] at hsplit
      subst hsplit
      dsimp only
      split_ifs
      · simp only [List.filter_append, ih t]
      · simp only [List.filter_append, List.filter_cons, ih after]

/-- The pivot goes behind every element of the segment that ties with it. -/
theorem binaryInsert_filter_pos {κ : Type} [LinearOrder κ] (cmp : α → α → Int) (key : α → κ)
    (pivot : α) (fuel : Nat) (seg : List α) (hfuel : seg.length ≤ fuel)
    (hcmp : ∀ b ∈ seg, (cmp pivot b < 0 ↔ key pivot < key b))
    (hseg : seg.Pairwise fun x y => key x ≤ key y) :
    (binaryInsert cmp pivot fuel seg).filter (fun x => decide (key x = key pivot))
      = seg.filter (fun x => decide (key x = key pivot)) ++ [pivot] := by
  induction fuel generalizing seg with
  | zero =>
    have hnil : seg = [] := List.length_eq_zero.mp (Nat.le_zero.mp hfuel)
    simp [binaryInsert, hnil]
  | succ fuel ih =>
    unfold binaryInsert
    have hsplit := List.take_append_drop (seg.length / 2) seg
    have htake : (seg.take (seg.length / 2)).length ≤ fuel := by
      rw [List.length_take]
      omega
    have hdrop : (seg.drop (seg.length / 2)).length = seg.length - seg.length / 2 :=
      List.length_drop _ _
    generalize seg.take (seg.length / 2) = t at hsplit htake ⊢
    cases hd : seg.drop (seg.length / 2) with
    | nil =>
      rw [hd] at hdrop
      have hnil : seg = [] := by
        apply List.length_eq_zero.mp
        simp only [List.length_nil] at hdrop
        omega
      simp [hnil]
    | cons x after =>
      rw [hd] at hsplit hdrop
      have hafter : after.length ≤ fuel := by
        simp only [List.length_cons] at hdrop
        omega
      subst hsplit
      have hp := List.pairwise_append.mp hseg
      have hxa := List.pairwise_cons.mp hp.2.1
      dsimp only
      split_ifs with h
      · have hkx : key pivot < key x := (hcmp x (by simp)).mp h
        have hnone : (x :: after).filter (fun y => decide (key y = key pivot)) = [] := by
          apply List.filter_eq_nil_iff.mpr
          intro b hb
          have hb2 : key pivot < key b := by
            rcases List.mem_cons.mp hb with rfl | hb
            · exact hkx
            · exact lt_of_lt_of_le hkx (hxa.1 b hb)
          simpa using ne_of_gt hb2
        rw [List.filter_append, List.filter_append, hnone,
          ih t htake (fun b hb => hcmp b (by simp [hb])) hp.1]
        simp
      · have hins := ih after hafter (fun b hb => hcmp b (by simp [hb])) hxa.2
        simp only [List.filter_append, List.filter_cons, hins]
        split_ifs <;> simp

theorem insertAll_perm (cmp : α → α → Int) (run rest : List α) :
    (insertAll cmp run rest).Perm (run ++ rest) := by
  induction rest generalizing run with
  | nil => simp [insertAll]
  | cons p rest ih =>
    have h1 : insertAll cmp run (p :: rest)
        = insertAll cmp (binaryInsert cmp p run.length run) rest := rfl
    rw [h1]
    refine (ih _).trans ?_
    refine ((binaryInsert_perm cmp p run.length run).append_right rest).trans ?_
    exact (@List.perm_middle _ p run rest).symm

theorem insertAll_pairwise {κ : Type} [LinearOrder κ] (cmp : α → α → Int) (key : α → κ)
    (l run rest : List α) (hcmp : ∀ a ∈ l, ∀ b ∈ l, (cmp a b < 0 ↔ key a < key b))
    (hrun : ∀ x ∈ run, x ∈ l) (hrest : ∀ x ∈ rest, x ∈ l)
    (hsorted : run.Pairwise fun x y => key x ≤ key y) :
    (insertAll cmp run rest).Pairwise fun x y => key x ≤ key y := by
  induction rest generalizing run with
  | nil => simpa [insertAll] using hsorted
  | cons p rest ih =>
    have h1 : insertAll cmp run (p :: rest)
        = insertAll cmp (binaryInsert cmp p run.length run) rest := rfl
    rw [h1]
    apply ih
    · intro x hx
      rcases (mem_binaryInsert cmp p run.length run x).mp hx with rfl | hx
      · exact hrest _ (List.mem_cons_self _ _)
      · exact hrun x hx
    · exact fun x hx => hrest x (List.mem_cons_of_mem p hx)
    · exact binaryInsert_pairwise cmp key p run.length run (le_refl _)
        (fun b hb => hcmp p (hrest p (List.mem_cons_self _ _)) b (hrun b hb)) hsorted

theorem insertAll_filter_key {κ : Type} [LinearOrder κ] (cmp : α → α → Int) (key : α → κ)
    (l run rest : List α) (hcmp : ∀ a ∈ l, ∀ b ∈ l, (cmp a b < 0 ↔ key a < key b))
    (hrun : ∀ x ∈ run, x ∈ l) (hrest : ∀ x ∈ rest, x ∈ l)
    (hsorted : run.Pairwise fun x y => key x ≤ key y) (k : κ) :
    (insertAll cmp run rest).filter (fun x => decide (key x = k))
      = run.filter (fun x => decide (key x = k)) ++ rest.filter (fun x => decide (key x = k)) := by
  induction rest generalizing run with
  | nil => simp [insertAll]
  | cons p rest ih =>
    have h1 : insertAll cmp run (p :: rest)
        = insertAll cmp (binaryInsert cmp p run.length run) rest := rfl
    have hp : ∀ b ∈ run, (cmp p b < 0 ↔ key p < key b) :=
      fun b hb => hcmp p (hrest p (List.mem_cons_self _ _)) b (hrun b hb)
    rw [h1, ih]
    · by_cases hk : key p = k
      · subst hk
        rw [binaryInsert_filter_pos cmp key p run.length run (le_refl _) hp hsorted]
        simp [List.filter_cons]
      · rw [binaryInsert_filter_neg cmp _ p run.length run (by simpa using hk)]
        simp [List.filter_cons, hk]
    · intro x hx
      rcases (mem_binaryInsert cmp p run.length run x).mp hx with rfl | hx
      · exact hrest _ (List.mem_cons_self _ _)
      · exact hrun x hx
    · exact fun x hx => hrest x (List.mem_cons_of_mem p hx)
    · exact binaryInsert_pairwise cmp key p run.length run (le_refl _) hp hsorted

/-- In a strictly descending list no two elements tie, so reversing it does not
change the order within any key class. -/
theorem filter_key_reverse_of_descending {κ : Type} [LinearOrder κ] (key : α → κ)
    (l : List α) (hl : l.Pairwise fun x y => key y < key x) (k : κ) :
    l.reverse.filter (fun x => decide (key x = k)) = l.filter (fun x => decide (key x = k)) := by
  have hlen : (l.filter (fun x => decide (key x = k))).length ≤ 1 := by
    induction l with
    | nil => simp
    | cons a l ih =>
      have hp := List.pairwise_cons.mp hl
      by_cases ha : key a = k
      · have hnone : l.filter (fun x => decide (key x = k)) = [] := by
          apply List.filter_eq_nil_iff.mpr
          intro b hb
          have := hp.1 b hb
          simpa using ne_of_lt (ha ▸ this)
        simp [List.filter_cons, ha, hnone]
      · simpa [List.filter_cons, ha] using ih hp.2
  rw [List.filter_reverse]
  cases hf : l.filter (fun x => decide (key x = k)) with
  | nil => rfl
  | cons a t =>
    rw [hf] at hlen
    have ht : t = [] := by
      apply List.length_eq_zero.mp
      simp only [List.length_cons] at hlen
      omega
    simp [ht]

theorem jsSort_perm (cmp : α → α → Int) (l : List α) : (jsSort cmp l).Perm l := by
  match l with
  | [] => exact List.Perm.refl _
  | [a] => exact List.Perm.refl _
  | a :: b :: rest =>
    unfold jsSort
    dsimp only
    refine (insertAll_perm cmp _ _).trans ?_
    have happ := splitRun_append cmp (decide (cmp b a < 0)) b rest
    have h2 : (a :: b :: (splitRun cmp (decide (cmp b a < 0)) b rest).1
        ++ (splitRun cmp (decide (cmp b a < 0)) b rest).2) = a :: b :: rest := by
      simp [happ]
    split_ifs
    · refine (List.Perm.append_right _ (List.reverse_perm _)).trans ?_
      rw [h2]
    · rw [h2]

theorem mem_jsSort (cmp : α → α → Int) (l : List α) (x : α) : x ∈ jsSort cmp l ↔ x ∈ l :=
  (jsSort_perm cmp l).mem_iff

/-- The first run, reversed when it descends, is sorted by key, and within each
key class it is in the order of the list. -/
theorem firstRun_sorted {κ : Type} [LinearOrder κ] (cmp : α → α → Int) (key : α → κ)
    (a b : α) (rest : List α)
    (hcmp : ∀ x ∈ a :: b :: rest, ∀ y ∈ a :: b :: rest, (cmp x y < 0 ↔ key x < key y)) :
    (if decide (cmp b a < 0) = true
      then (a :: b :: (splitRun cmp (decide (cmp b a < 0)) b rest).1).reverse
      else a :: b :: (splitRun cmp (decide (cmp b a < 0)) b rest).1).Pairwise
        (fun x y => key x ≤ key y) ∧
    ∀ k : κ, (if decide (cmp b a < 0) = true
      then (a :: b :: (splitRun cmp (decide (cmp b a < 0)) b rest).1).reverse
      else a :: b :: (splitRun cmp (decide (cmp b a < 0)) b rest).1).filter
        (fun x => decide (key x = k))
      = (a :: b :: (splitRun cmp (decide (cmp b a < 0)) b rest).1).filter
        (fun x => decide (key x = k)) := by
  have hba := hcmp b (by simp) a (by simp)
  have htail : ∀ x ∈ b :: rest, ∀ y ∈ b :: rest, (cmp x y < 0 ↔ key x < key y) :=
    fun x hx y hy => hcmp x (List.mem_cons_of_mem a hx) y (List.mem_cons_of_mem a hy)
  by_cases hd : cmp b a < 0
  · have hlt : key b < key a := hba.mp hd
    have hrun := splitRun_descending cmp key b rest htail
    have hdesc : (a :: b :: (splitRun cmp true b rest).1).Pairwise
        (fun x y => key y < key x) := by
      refine List.pairwise_cons.mpr ⟨?_, hrun⟩
      intro y hy
      rcases List.mem_cons.mp hy with rfl | hy
      · exact hlt
      · exact lt_trans ((List.pairwise_cons.mp hrun).1 y hy) hlt
    simp only [hd, decide_True, if_true]
    constructor
    · rw [List.pairwise_reverse]
      exact hdesc.imp (fun h => le_of_lt h)
    · intro k
      exact filter_key_reverse_of_descending key _ hdesc k
  · have hle : key a ≤ key b := not_lt.mp (fun hk => hd (hba.mpr hk))
    have hrun := splitRun_ascending cmp key b rest htail
    simp only [hd, decide_False, Bool.false_eq_true, if_false]
    refine ⟨List.pairwise_cons.mpr ⟨?_, hrun⟩, fun k => trivial⟩
    intro y hy
    rcases List.mem_cons.mp hy with rfl | hy
    · exact hle
    · exact le_trans hle ((List.pairwise_cons.mp hrun).1 y hy)

theorem firstRun_subset (cmp : α → α → Int) (a b : α) (rest : List α) :
    (∀ x ∈ (if decide (cmp b a < 0) = true
      then (a :: b :: (splitRun cmp (decide (cmp b a < 0)) b rest).1).reverse
      else a :: b :: (splitRun cmp (decide (cmp b a < 0)) b rest).1), x ∈ a :: b :: rest) ∧
    (∀ x ∈ (splitRun cmp (decide (cmp b a < 0)) b rest).2, x ∈ a :: b :: rest) := by
  have happ := splitRun_append cmp (decide (cmp b a < 0)) b rest
  have h1 : ∀ x ∈ (splitRun cmp (decide (cmp b a < 0)) b rest).1, x ∈ rest := by
    intro x hx
    rw [← happ]
    exact List.mem_append_left _ hx
  have h2 : ∀ x ∈ (splitRun cmp (decide (cmp b a < 0)) b rest).2, x ∈ rest := by
    intro x hx
    rw [← happ]
    exact List.mem_append_right _ hx
  have h3 : ∀ x ∈ a :: b :: (splitRun cmp (decide (cmp b a < 0)) b rest).1,
      x ∈ a :: b :: rest := by
    intro x hx
    simp only [List.mem_cons] at hx ⊢
    rcases hx with h | h | h
    · exact Or.inl h
    · exact Or.inr (Or.inl h)
    · exact Or.inr (Or.inr (h1 x h))
  constructor
  · intro x hx
    split_ifs at hx
    · exact h3 x (List.mem_reverse.mp hx)
    · exact h3 x hx
  · intro x hx
    exact List.mem_cons_of_mem a (List.mem_cons_of_mem b (h2 x hx))

/-- On a list where the comparator is the order of a linear key, the sort
returns the elements in ascending key order. -/
theorem jsSort_pairwise {κ : Type} [LinearOrder κ] (cmp : α → α → Int) (key : α → κ)
    (l : List α) (hcmp : ∀ a ∈ l, ∀ b ∈ l, (cmp a b < 0 ↔ key a < key b)) :
    (jsSort cmp l).Pairwise fun x y => key x ≤ key y := by
  match l with
  | [] => simp [jsSort]
  | [a] => simp [jsSort]
  | a :: b :: rest =>
    unfold jsSort
    dsimp only
    exact insertAll_pairwise cmp key (a :: b :: rest) _ _ hcmp
      (firstRun_subset cmp a b rest).1 (firstRun_subset cmp a b rest).2
      (firstRun_sorted cmp key a b rest hcmp).1

/-- The sort is stable: the elements of any one key class come out in the order
in which they went in. -/
theorem jsSort_filter_key {κ : Type} [LinearOrder κ] (cmp : α → α → Int) (key : α → κ)
    (l : List α) (hcmp : ∀ a ∈ l, ∀ b ∈ l, (cmp a b < 0 ↔ key a < key b)) (k : κ) :
    (jsSort cmp l).filter (fun x => decide (key x = k))
      = l.filter (fun x => decide (key x = k)) := by
  match l with
  | [] => simp [jsSort]
  | [a] => simp [jsSort]
  | a :: b :: rest =>
    unfold jsSort
    dsimp only
    rw [insertAll_filter_key cmp key (a :: b :: rest) _ _ hcmp
      (firstRun_subset cmp a b rest).1 (firstRun_subset cmp a b rest).2
      (firstRun_sorted cmp key a b rest hcmp).1 k,
      (firstRun_sorted cmp key a b rest hcmp).2 k, ← List.filter_append]
    have happ := splitRun_append cmp (decide (cmp b a < 0)) b rest
    simp [happ]

end StableSort

/-! ## Sorting by due date -/

theorem mem_tasks_of_mem_searchFilter (rt : JsRuntime) (s : State) (t : Task)
    (h : t ∈ searchFilter rt s.searchQuery (statusFilter s.currentFilter s.tasks)) :
    t ∈ s.tasks := by
  have h1 : t ∈ statusFilter s.currentFilter s.tasks := by
    unfold searchFilter at h
    dsimp only at h
    split_ifs at h
    · exact (List.mem_filter.mp h).1
    · exact h
  exact (List.mem_filter.mp h1).1

theorem dueKey_eq_iff (rt : JsRuntime) (a b : Task) :
    dueKey rt a = dueKey rt b ↔ dueTime rt a = dueTime rt b := by
  unfold dueKey
  cases dueTime rt a <;> cases dueTime rt b <;> simp

/-- On tasks whose due dates are valid, the comparator is the order of the keys. -/
theorem compareDueDate_lt_iff (rt : JsRuntime) (a b : Task)
    (ha : truthy a.dueDate = true → (rt.dateValue (orEmpty a.dueDate)).isSome = true)
    (hb : truthy b.dueDate = true → (rt.dateValue (orEmpty b.dueDate)).isSome = true) :
    compareDueDate rt a b < 0 ↔ dueKey rt a < dueKey rt b := by
  unfold compareDueDate dueKey dueTime
  cases hta : truthy a.dueDate <;> cases htb : truthy b.dueDate
  · simp
  · obtain ⟨y, hy⟩ := Option.isSome_iff_exists.mp (hb htb)
    simp [hy]
  · obtain ⟨x, hx⟩ := Option.isSome_iff_exists.mp (ha hta)
    simp [hx, WithTop.coe_lt_top]
  · obtain ⟨x, hx⟩ := Option.isSome_iff_exists.mp (ha hta)
    obtain ⟨y, hy⟩ := Option.isSome_iff_exists.mp (hb htb)
    simp [hx, hy]

theorem dueKey_le_dated (rt : JsRuntime) (a b : Task)
    (ha : truthy a.dueDate = true → (rt.dateValue (orEmpty a.dueDate)).isSome = true)
    (hb : truthy b.dueDate = true → (rt.dateValue (orEmpty b.dueDate)).isSome = true)
    (hle : dueKey rt a ≤ dueKey rt b) (hdb : truthy b.dueDate = true) :
    truthy a.dueDate = true ∧ ∃ x y, rt.dateValue (orEmpty a.dueDate) = some x ∧
      rt.dateValue (orEmpty b.dueDate) = some y ∧ x ≤ y := by
  obtain ⟨y, hy⟩ := Option.isSome_iff_exists.mp (hb hdb)
  unfold dueKey dueTime at hle
  cases hta : truthy a.dueDate
  · simp [hta, hdb, hy] at hle
  · obtain ⟨x, hx⟩ := Option.isSome_iff_exists.mp (ha hta)
    refine ⟨rfl, x, y, hx, hy, ?_⟩
    simpa [hta, hdb, hx, hy] using hle

/-- C6 (as the code behaves): with the sort option `dueDate`, on a store whose due
dates, where present, are valid dates, the displayed list is a permutation of
the filtered and searched list; whenever a task comes before a task that has a
due date, it has a due date too and its date is not later (so every task with a
due date precedes every task without one, and the dated tasks are in ascending
date order); and the tasks that tie with any given task (equal dates, or both
without a due date) appear in the same order as in the filtered and searched
list. -/
theorem renderTasks_dueDate_sorted (rt : JsRuntime) (s : State)
    (hsort : s.sortOption = "dueDate")
    (hvalid : ∀ t ∈ s.tasks, truthy t.dueDate = true →
      (rt.dateValue (orEmpty t.dueDate)).isSome = true) :
    (renderTasks rt s).Perm
      (searchFilter rt s.searchQuery (statusFilter s.currentFilter s.tasks)) ∧
    (renderTasks rt s).Pairwise (fun a b => truthy b.dueDate = true →
      truthy a.dueDate = true ∧ ∃ x y, rt.dateValue (orEmpty a.dueDate) = some x ∧
        rt.dateValue (orEmpty b.dueDate) = some y ∧ x ≤ y) ∧
    (∀ t : Task, (renderTasks rt s).filter (sameDue rt t)
      = (searchFilter rt s.searchQuery (statusFilter s.currentFilter s.tasks)).filter
          (sameDue rt t)) := by
  have hr : renderTasks rt s = jsSort (compareDueDate rt)
      (searchFilter rt s.searchQuery (statusFilter s.currentFilter s.tasks)) := by
    simp [renderTasks, hsort]
  have hv : ∀ t ∈ searchFilter rt s.searchQuery (statusFilter s.currentFilter s.tasks),
      truthy t.dueDate = true → (rt.dateValue (orEmpty t.dueDate)).isSome = true :=
    fun t ht => hvalid t (mem_tasks_of_mem_searchFilter rt s t ht)
  have hcmp : ∀ a ∈ searchFilter rt s.searchQuery (statusFilter s.currentFilter s.tasks),
      ∀ b ∈ searchFilter rt s.searchQuery (statusFilter s.currentFilter s.tasks),
      (compareDueDate rt a b < 0 ↔ dueKey rt a < dueKey rt b) :=
    fun a ha b hb => compareDueDate_lt_iff rt a b (hv a ha) (hv b hb)
  rw [hr]
  refine ⟨jsSort_perm _ _, ?_, ?_⟩
  · have hp := jsSort_pairwise (compareDueDate rt) (dueKey rt) _ hcmp
    rw [List.pairwise_iff_forall_sublist] at hp ⊢
    intro a b hab
    have ha : a ∈ searchFilter rt s.searchQuery (statusFilter s.currentFilter s.tasks) :=
      (mem_jsSort _ _ a).mp (hab.subset (List.mem_cons_self a _))
    have hb : b ∈ searchFilter rt s.searchQuery (statusFilter s.currentFilter s.tasks) :=
      (mem_jsSort _ _ b).mp (hab.subset (List.mem_cons_of_mem a (List.mem_cons_self b _)))
    exact dueKey_le_dated rt a b (hv a ha) (hv b hb) (hp hab)
  · intro t
    have hfun : sameDue rt t = fun u => decide (dueKey rt u = dueKey rt t) := by
      funext u
      simp only [sameDue, dueKey_eq_iff]
      cases hd : (dueTime rt u == dueTime rt t) <;> simp_all
    rw [hfun]
    exact jsSort_filter_key (compareDueDate rt) (dueKey rt) _ hcmp (dueKey rt t)

theorem isoDateValue_examples :
    isoDateValue "1970-01-02" = some 86400000 ∧
    isoDateValue "2024-05-02" = some 1714608000000 ∧
    isoDateValue "2023-02-29" = none ∧ isoDateValue "" = none := by
  decide

theorem renderTasks_dueDate_sorted_witness :
    (renderTasks asciiRuntime dueState).Perm
      (searchFilter asciiRuntime dueState.searchQuery
        (statusFilter dueState.currentFilter dueState.tasks)) ∧
    (renderTasks asciiRuntime dueState).map (fun t => t.id) = [3, 4, 1, 2, 5] :=
  ⟨(renderTasks_dueDate_sorted asciiRuntime dueState rfl (by decide)).1, by decide⟩

/-- C6, the claim as written, refuted: after three creates with the due dates
`2024-05-03`, `garbage` and `2024-05-01`, the `dueDate` sort displays the tasks
in that same order, so the task due on 3 May comes before the task due on
1 May although both have a due date. -/
theorem renderTasks_dueDate_counterexample :
    (renderTasks asciiRuntime garbageDateState).map (fun t => (t.id, t.dueDate))
      = [(1, some "2024-05-03"), (2, some "garbage"), (3, some "2024-05-01")] ∧
    (renderTasks asciiRuntime garbageDateState).map (fun t => dueTime asciiRuntime t)
      = [some 1714694400000, none, some 1714521600000] ∧
    ¬ (renderTasks asciiRuntime garbageDateState).Pairwise (fun a b =>
      truthy b.dueDate = true →
        truthy a.dueDate = true ∧ ∃ x y, asciiRuntime.dateValue (orEmpty a.dueDate) = some x ∧
          asciiRuntime.dateValue (orEmpty b.dueDate) = some y ∧ x ≤ y) := by
  refine ⟨by decide, by decide, ?_⟩
  intro h
  have hout : renderTasks asciiRuntime garbageDateState =
      [newTask 1 "A" "" "2024-05-03" "normal", newTask 2 "B" "" "garbage" "normal",
       newTask 3 "C" "" "2024-05-01" "normal"] := by decide
  rw [hout] at h
  have h13 := (List.pairwise_cons.mp h).1 (newTask 3 "C" "" "2024-05-01" "normal")
    (by simp) (by decide)
  obtain ⟨_, x, y, hx, hy, hxy⟩ := h13
  have hx2 : asciiRuntime.dateValue (orEmpty (newTask 1 "A" "" "2024-05-03" "normal").dueDate)
      = some 1714694400000 := by decide
  have hy2 : asciiRuntime.dateValue (orEmpty (newTask 3 "C" "" "2024-05-01" "normal").dueDate)
      = some 1714521600000 := by decide
  rw [hx2] at hx
  rw [hy2] at hy
  simp only [Option.some.injEq] at hx hy
  omega

/-- The sort on comparators that are not consistent: a `NaN` between a readable
and an unreadable date, or between a rank and an inherited key, is read as a
tie. -/
theorem jsSort_examples :
    (jsSort (compareDueDate asciiRuntime)
      [newTask 1 "" "" "2024-05-03" "", newTask 2 "" "" "2024-05-02" "",
       newTask 3 "" "" "garbage" "", newTask 4 "" "" "2024-05-01" ""]).map (fun t => t.id)
      = [4, 2, 1, 3] ∧
    (renderTasks asciiRuntime inheritedKeyState).map (fun t => t.id) = [1, 3, 2] := by
  decide

/-! ## Loading the tasks at startup -/

/-- The recogniser on a few texts: a stored task array and other JSON texts,
then texts that are not JSON, the stored array cut short among them. -/
theorem isJsonText_examples :
    isJsonText storedTaskText = true ∧
    isJsonText " [ 1 , true,\"a\\n\\u00e9\" ] " = true ∧
    isJsonText "-1.5e3" = true ∧ isJsonText "1e-400" = true ∧
    isJsonText "null" = true ∧ isJsonText "\x7b\"a\":\x7b\x7d,\"a\":[[]]\x7d" = true ∧
    isJsonText "" = false ∧ isJsonText "01" = false ∧ isJsonText "[1,]" = false ∧
    isJsonText "1." = false ∧ isJsonText "\"a" = false ∧ isJsonText "\"\\x\"" = false ∧
    isJsonText "tasks" = false ∧ isJsonText "undefined" = false ∧
    isJsonText "\x7b\"a\":1,\x7d" = false ∧ isJsonText "[1] 2" = false ∧
    isJsonText truncatedTaskText = false := by
  decide

/-- With the entry absent, `JSON.parse` is given `null`, whose value is falsy on
every host of the language, and the fallback yields the empty array. -/
theorem loadTasks_absent {V : Type} (host : JsonHost V)
    (hnull : host.truthy (host.value "null") = false) :
    loadTasks host none = Except.ok host.emptyArray := by
  have h : isJsonText "null" = true := by decide
  simp [loadTasks, jsonParse, storedText, h, hnull]

/-- C9, the code at the failing input: the entry holds `[{"id":1700000000000,"title":"A"`,
a stored array cut short. The text is not JSON, `JSON.parse` raises a syntax
error, and so does the load: the initial collection is not the empty sequence,
whatever the host's values are. -/
theorem loadTasks_truncated_raises {V : Type} (host : JsonHost V) :
    isJsonText truncatedTaskText = false ∧
    loadTasks host (some truncatedTaskText) = Except.error JsError.syntaxError ∧
    loadTasks host (some truncatedTaskText) ≠ Except.ok host.emptyArray := by
  have h : isJsonText truncatedTaskText = false := by decide
  have h2 : loadTasks host (some truncatedTaskText) = Except.error JsError.syntaxError := by
    simp [loadTasks, jsonParse, storedText, h]
  refine ⟨h, h2, ?_⟩
  rw [h2]
  intro hc
  cases hc

end TodoList
